import Mathlib

/-!
Shallow embedding of the pycryptosat binding layer
(`src/python/src/pycryptosat.cpp`): literal codec, variable-space growth,
clause ingestion (sequence and flat-array forms), XOR ingestion, the solve
orchestrator, solution extraction and the multi-solution enumerator
`msolve_selected`.  The external engine (`CMSat::SATSolver`) is repository
code that is not part of the bindings source; where its behaviour decides a
claim it is modelled from the spec (see `engineSolve`).
-/

namespace Pycryptosat

/-- Three-valued truth entries of the engine model (`CMSat::lbool`). -/
inductive LBool where
  | ltrue
  | lfalse
  | lundef
deriving DecidableEq, Repr, BEq

/-- A literal as stored by the engine: zero-based variable index and a sign
bit, `true` meaning negated, mirroring `CMSat::Lit(var, sign)`. -/
structure Lit where
  var : Nat
  sign : Bool
deriving DecidableEq, Repr

/-- Engine state visible through the binding layer: the number of allocated
variables (`nVars()`), the committed clauses and the committed XOR clauses. -/
@[ext]
structure SolverState where
  numVars : Nat
  clauses : List (List Lit)
  xorClauses : List (List Nat × Bool)
deriving DecidableEq, Repr

/-- Error kinds raised by the binding layer. -/
inductive PyErr where
  | typeError
  | valueError
  | systemError
deriving DecidableEq, Repr

/-- A Python-level input value: an integer, or anything failing `IS_INT`. -/
inductive PyVal where
  | int (v : Int)
  | nonInt
deriving DecidableEq, Repr

/-- Value of `std::numeric_limits<int>::max() / 2` with C truncating
division: 2147483647 / 2 = 1073741823. -/
def INT_MAX_HALF : Int := 1073741823

/-- Value of `std::numeric_limits<int>::min() / 2` with C division
truncating toward zero: -2147483648 / 2 = -1073741824. -/
def INT_MIN_HALF : Int := -1073741824

/-- Embedding of `convert_lit_to_sign_and_var`: rejects non-integers
(TypeError), zero and out-of-range magnitudes (ValueError), and otherwise
returns the zero-based variable index together with the sign. -/
def convert_lit_to_sign_and_var : PyVal → Except PyErr (Nat × Bool)
  | .nonInt => .error .typeError
  | .int v =>
    if v = 0 then .error .valueError
    else if v > INT_MAX_HALF ∨ v < INT_MIN_HALF then .error .valueError
    else .ok (v.natAbs - 1, decide (v < 0))

/-- Re-encoding of a decoded (variable, sign) pair back into a signed
one-based literal, the inverse direction used by the round-trip property
and by `get_raw_solution`. -/
def encodeLit (var : Nat) (sign : Bool) : Int :=
  if sign then -((var : Int) + 1) else (var : Int) + 1

/-- The literal-collection loop of `parse_clause`: decodes each element,
accumulating the literals and the running maximum variable index
(initialised to 0 as in the source). -/
def parse_clause_loop : List PyVal → List Lit → Nat → Except PyErr (List Lit × Nat)
  | [], lits, max_var => .ok (lits, max_var)
  | x :: xs, lits, max_var =>
    match convert_lit_to_sign_and_var x with
    | .error e => .error e
    | .ok (var, sign) => parse_clause_loop xs (lits ++ [⟨var, sign⟩]) (max var max_var)

/-- Embedding of `parse_clause`: collects the literals, then grows the
variable space once by exactly the deficit when the clause is non-empty and
its maximum variable index is at least `nVars()`. -/
def parse_clause (s : SolverState) (clause : List PyVal) :
    SolverState × Except PyErr (List Lit) :=
  match parse_clause_loop clause [] 0 with
  | .error e => (s, .error e)
  | .ok (lits, max_var) =>
    if lits ≠ [] ∧ max_var ≥ s.numVars then
      ({ s with numVars := s.numVars + (max_var - s.numVars + 1) }, .ok lits)
    else (s, .ok lits)

/-- Embedding of the engine call `add_clause`: appends the clause. -/
def engine_add_clause (s : SolverState) (lits : List Lit) : SolverState :=
  { s with clauses := s.clauses ++ [lits] }

/-- Embedding of `_add_clause`: parse (growing the space as needed) and
commit the clause, including an empty one. -/
def _add_clause (s : SolverState) (clause : List PyVal) :
    SolverState × Except PyErr Unit :=
  match parse_clause s clause with
  | (s', .error e) => (s', .error e)
  | (s', .ok lits) => (engine_add_clause s' lits, .ok ())

/-- Per-clause loop of the iterable path of `add_clauses`: stops at the
first failing clause, keeping earlier commits. -/
def add_clauses_loop : SolverState → List (List PyVal) → SolverState × Except PyErr Unit
  | s, [] => (s, .ok ())
  | s, c :: cs =>
    match _add_clause s c with
    | (s', .error e) => (s', .error e)
    | (s', .ok _) => add_clauses_loop s' cs

/-- Embedding of `add_clauses` (iterable path) with its optional `max_var`
pre-growth: `if (max_var > nVars) new_vars(max_var - nVars)`. -/
def add_clauses (s : SolverState) (clauses : List (List PyVal)) (max_var : Int) :
    SolverState × Except PyErr Unit :=
  let s0 := if max_var > (s.numVars : Int)
    then { s with numVars := s.numVars + (max_var - (s.numVars : Int)).toNat }
    else s
  add_clauses_loop s0 clauses

/-- Literal decoded inline by `_add_clauses_from_array`
(`sign = (val < 0); var = std::abs(val) - 1`). -/
def array_lit (v : Int) : Lit := ⟨v.natAbs - 1, decide (v < 0)⟩

/-- Commit step at the end of a run in `_add_clauses_from_array`: when the
run is non-empty, grow the variable space by the deficit and add the
clause; an empty run commits nothing. -/
def commit_run (s : SolverState) (lits : List Lit) (max_var : Nat) : SolverState :=
  if lits ≠ [] then
    let s' := if max_var ≥ s.numVars
      then { s with numVars := s.numVars + (max_var - s.numVars + 1) }
      else s
    engine_add_clause s' lits
  else s

/-- Scanning loop of `_add_clauses_from_array`: accumulates a run of
non-zero values, committing it at each zero separator (and at the end of
the buffer); a magnitude out of range aborts, keeping earlier commits. -/
def array_loop : SolverState → List Lit → Nat → List Int → SolverState × Except PyErr Unit
  | s, lits, max_var, [] => (commit_run s lits max_var, .ok ())
  | s, lits, max_var, v :: rest =>
    if v = 0 then array_loop (commit_run s lits max_var) [] 0 rest
    else if v > INT_MAX_HALF ∨ v < INT_MIN_HALF then (s, .error .valueError)
    else array_loop s (lits ++ [array_lit v]) (max (v.natAbs - 1) max_var) rest

/-- Embedding of `_add_clauses_from_array`: an empty buffer succeeds doing
nothing; a non-empty buffer must end with the separator 0 (checked before
anything is committed) and is then scanned run by run. -/
def _add_clauses_from_array (s : SolverState) (array : List Int) :
    SolverState × Except PyErr Unit :=
  if array = [] then (s, .ok ())
  else if array.getLast? ≠ some 0 then (s, .error .valueError)
  else array_loop s [] 0 array

/-- Embedding of `parse_xor_clause`: decodes each element, rejects negated
literals, and grows the variable space element by element (so an error
midway keeps the growth already performed). -/
def parse_xor_clause : SolverState → List PyVal → List Nat →
    SolverState × Except PyErr (List Nat)
  | s, [], vars => (s, .ok vars)
  | s, x :: xs, vars =>
    match convert_lit_to_sign_and_var x with
    | .error e => (s, .error e)
    | .ok (var, sign) =>
      if sign then (s, .error .valueError)
      else
        let s' := if var ≥ s.numVars then { s with numVars := var + 1 } else s
        parse_xor_clause s' xs (vars ++ [var])

/-- Embedding of `add_xor_clause` (the boolean right-hand side is already
type-checked at the Python boundary). -/
def add_xor_clause (s : SolverState) (clause : List PyVal) (rhs : Bool) :
    SolverState × Except PyErr Unit :=
  match parse_xor_clause s clause [] with
  | (s', .error e) => (s', .error e)
  | (s', .ok vars) => ({ s' with xorClauses := s'.xorClauses ++ [(vars, rhs)] }, .ok ())

/-- Embedding of `parse_assumption_lits`: decodes each assumption literal
and rejects (ValueError) any variable index not below `nVars()`; this path
never grows the variable space. -/
def parse_assumption_lits (numVars : Nat) : List PyVal → List Lit →
    Except PyErr (List Lit)
  | [], acc => .ok acc
  | x :: xs, acc =>
    match convert_lit_to_sign_and_var x with
    | .error e => .error e
    | .ok (var, sign) =>
      if var ≥ numVars then .error .valueError
      else parse_assumption_lits numVars xs (acc ++ [⟨var, sign⟩])

/-- Truth of a literal under a total assignment, given as a list of
booleans indexed by variable. -/
def litSat (m : List Bool) (l : Lit) : Bool := m.getD l.var false != l.sign

/-- Truth of a clause (disjunction) under a total assignment. -/
def clauseSat (m : List Bool) (cl : List Lit) : Bool := cl.any (litSat m)

/-- Truth of an XOR constraint under a total assignment. -/
def xorClauseSat (m : List Bool) (xc : List Nat × Bool) : Bool :=
  (xc.1.foldl (fun acc v => xor acc (m.getD v false)) false) == xc.2

/-- Truth of all committed constraints under a total assignment. -/
def stateSat (m : List Bool) (s : SolverState) : Bool :=
  s.clauses.all (clauseSat m) && s.xorClauses.all (xorClauseSat m)

/-- All total assignments to `n` variables. -/
def allAssignments : Nat → List (List Bool)
  | 0 => [[]]
  | n + 1 => (allAssignments n).flatMap (fun m => [false :: m, true :: m])

/-- Modelled from the spec: the external engine call `SATSolver::solve`
(the engine itself is repository code outside the bindings source).  Per
the spec it is a blocking solve over the committed clauses and XOR clauses
plus the ephemeral assumptions; with no resource limits configured (the
default, "Never abort") it reports satisfiable together with a model
exactly when the constraints are satisfiable, and unsatisfiable otherwise,
never unknown. -/
def engineSolve (s : SolverState) (assumption_lits : List Lit) : Option (List Bool) :=
  (allAssignments s.numVars).find? (fun m => stateSat m s && assumption_lits.all (litSat m))

/-- Embedding of `get_solution`: dense rendering of length `nVars()+1`,
slot 0 the sentinel `None`, slot `i+1` the three-valued entry of variable
`i` in the model. -/
def get_solution (n : Nat) (model : List LBool) : List (Option Bool) :=
  none :: (List.range n).map (fun i =>
    match model.getD i .lundef with
    | .ltrue => some true
    | .lfalse => some false
    | .lundef => none)

/-- Embedding of `get_raw_solution`: a tuple of `nVars()` slots; slot `var`
holds `(var + 1) * sign` when the model assigns the variable, and is left
unset (`none`, a NULL slot in the source) when the variable is unassigned. -/
def get_raw_solution (n : Nat) (model : List LBool) : List (Option Int) :=
  (List.range n).map (fun var =>
    if model.getD var .lundef ≠ .lundef then
      some (((var : Int) + 1) * (if model.getD var .lundef == .ltrue then 1 else -1))
    else none)

/-- Injection of a total model into the engine's three-valued model. -/
def boolToLbool (b : Bool) : LBool := if b then .ltrue else .lfalse

/-- Embedding of the binding-level `solve`: parse the optional assumptions
(never growing the variable space), run the modelled engine, and map the
result to `(True, dense)` / `(False, None)`; with the modelled engine the
unknown branch `(None, None)` of the source is unreachable. -/
def solve (s : SolverState) (assumptions : Option (List PyVal)) :
    SolverState × Except PyErr (Option Bool × Option (List (Option Bool))) :=
  match assumptions with
  | none =>
    match engineSolve s [] with
    | some m => (s, .ok (some true, some (get_solution s.numVars (m.map boolToLbool))))
    | none => (s, .ok (some false, none))
  | some a =>
    match parse_assumption_lits s.numVars a [] with
    | .error e => (s, .error e)
    | .ok alits =>
      match engineSolve s alits with
      | some m => (s, .ok (some true, some (get_solution s.numVars (m.map boolToLbool))))
      | none => (s, .ok (some false, none))

/-- Embedding of the blocking-clause construction loop of
`msolve_selected`: for each projection entry with non-negative polarity,
push the literal on its variable signed by whether the model currently
assigns it true; negative projection entries are skipped. -/
def ban_solution : List Lit → List LBool → List Lit
  | [], _ => []
  | l :: rest, model =>
    if l.sign = false then
      ⟨l.var, model.getD l.var .lundef == .ltrue⟩ :: ban_solution rest model
    else ban_solution rest model

/-- A rendered solution in either of the two caller-selectable formats. -/
inductive PySolution where
  | dense (t : List (Option Bool))
  | raw (t : List (Option Int))
deriving DecidableEq, Repr

/-- Rendering step inside the `msolve_selected` loop, selected by the
`raw` flag. -/
def render (raw_flag : Bool) (n : Nat) (model : List LBool) : PySolution :=
  if raw_flag then .raw (get_raw_solution n model) else .dense (get_solution n model)

/-- The solve/record/ban loop of `msolve_selected`, parametrised by the
engine solve call; the fuel is `max_nr_of_solutions - current_nr`, and the
blocking clause is added exactly when further iterations remain.  With the
modelled engine the unknown branch of the source is unreachable. -/
def msolve_loopF (f : SolverState → Option (List Bool)) (var_lits : List Lit)
    (raw_flag : Bool) : SolverState → Nat → SolverState × List PySolution
  | s, 0 => (s, [])
  | s, fuel + 1 =>
    match f s with
    | none => (s, [])
    | some m =>
      let sol := render raw_flag s.numVars (m.map boolToLbool)
      if fuel = 0 then (s, [sol])
      else
        let s' := engine_add_clause s (ban_solution var_lits (m.map boolToLbool))
        let res := msolve_loopF f var_lits raw_flag s' fuel
        (res.1, sol :: res.2)

/-- Embedding of `msolve_selected` parametrised by the engine solve call:
the projection list is parsed through `parse_clause` (growing the variable
space exactly like clause ingestion), then the enumeration loop runs. -/
def msolve_selectedF (f : SolverState → Option (List Bool)) (s : SolverState)
    (max_nr_of_solutions : Int) (var_selected : List PyVal) (raw_flag : Bool) :
    SolverState × Except PyErr (List PySolution) :=
  match parse_clause s var_selected with
  | (s', .error e) => (s', .error e)
  | (s', .ok var_lits) =>
    let res := msolve_loopF f var_lits raw_flag s' max_nr_of_solutions.toNat
    (res.1, .ok res.2)

/-- Embedding of `msolve_selected` with the modelled engine. -/
def msolve_selected (s : SolverState) (max_nr_of_solutions : Int)
    (var_selected : List PyVal) (raw_flag : Bool) :
    SolverState × Except PyErr (List PySolution) :=
  msolve_selectedF (fun st => engineSolve st []) s max_nr_of_solutions var_selected raw_flag

/-- The maximum zero-based variable index referenced in a clause
(0 for the empty clause), matching the accumulator of `parse_clause`. -/
def maxVarIndex (lits : List Lit) : Nat :=
  lits.foldr (fun l acc => max l.var acc) 0

/-- Modelled from the spec's words for the flat-buffer contract: the
maximal runs of consecutive values delimited by the separator 0 (empty
runs included, to be filtered). -/
def zeroRuns : List Int → List (List Int)
  | [] => [[]]
  | v :: rest =>
    if v = 0 then [] :: zeroRuns rest
    else
      match zeroRuns rest with
      | r :: rs => (v :: r) :: rs
      | [] => [[v]]

/-- Decoding of a run of non-zero values into a clause. -/
def decodeRun (run : List Int) : List Lit := run.map array_lit

/-- Modelled from the spec's words: the clauses a flat buffer should
commit, given a partial run already accumulated — each non-empty run
becomes one clause, empty runs are skipped. -/
def runsToClauses (lits : List Lit) : List (List Int) → List (List Lit)
  | [] => if lits = [] then [] else [lits]
  | r :: rs => ((lits ++ decodeRun r) :: rs.map decodeRun).filter (fun c => c ≠ [])

/-- The truth value, under the current model's value `b` of its variable,
of a literal on that variable. -/
def litTruth (b : Bool) (l : Lit) : Bool := b != l.sign

/-- Reading a rendered solution's assignment of variable `v` (dense: slot
`v+1`; raw: the sign of the literal in slot `v`). -/
def solAssign : PySolution → Nat → Option Bool
  | .dense t, v => t.getD (v + 1) none
  | .raw t, v =>
    match t.getD v none with
    | some x => some (decide (0 < x))
    | none => none

/-- Two rendered solutions differ on some positive projection entry. -/
def DiffOn (var_lits : List Lit) (a b : PySolution) : Prop :=
  ∃ l ∈ var_lits, l.sign = false ∧ solAssign a l.var ≠ solAssign b l.var

/-- A fresh solver as produced by `Solver()`. -/
def freshSolver : SolverState := { numVars := 0, clauses := [], xorClauses := [] }

end Pycryptosat

namespace Pycryptosat

/-! ### Generic list helpers -/

theorem getD_map_range {α : Type} (f : Nat → α) (n v : Nat) (d : α) (h : v < n) :
    ((List.range n).map f).getD v d = f v := by
  rw [List.getD_eq_getElem?_getD]
  simp [List.getElem?_map, List.getElem?_range, h]

theorem boolToLbool_beq_ltrue (b : Bool) : (boolToLbool b == LBool.ltrue) = b := by
  cases b <;> rfl

/-! ### Blocking-clause construction (`ban_solution`) -/

theorem ban_solution_mem {var_lits : List Lit} {model : List LBool} {bl : Lit}
    (hm : bl ∈ ban_solution var_lits model) :
    ∃ l ∈ var_lits, l.sign = false ∧
      bl = ⟨l.var, model.getD l.var .lundef == .ltrue⟩ := by
  induction var_lits with
  | nil => simp [ban_solution] at hm
  | cons x rest ih =>
    by_cases hx : x.sign = false
    · rw [ban_solution, if_pos hx] at hm
      rcases List.mem_cons.mp hm with rfl | hm'
      · exact ⟨x, List.mem_cons_self x rest, hx, rfl⟩
      · obtain ⟨l, hl, hs, heq⟩ := ih hm'
        exact ⟨l, List.mem_cons_of_mem x hl, hs, heq⟩
    · rw [ban_solution, if_neg hx] at hm
      obtain ⟨l, hl, hs, heq⟩ := ih hm
      exact ⟨l, List.mem_cons_of_mem x hl, hs, heq⟩

theorem ban_solution_mem_of {var_lits : List Lit} {model : List LBool} {l : Lit}
    (hl : l ∈ var_lits) (hs : l.sign = false) :
    (⟨l.var, model.getD l.var .lundef == .ltrue⟩ : Lit) ∈ ban_solution var_lits model := by
  induction var_lits with
  | nil => simp at hl
  | cons x rest ih =>
    rcases List.mem_cons.mp hl with rfl | hmem
    · rw [ban_solution, if_pos hs]
      exact List.mem_cons_self _ _
    · by_cases hx : x.sign = false
      · rw [ban_solution, if_pos hx]
        exact List.mem_cons_of_mem _ (ih hmem)
      · rw [ban_solution, if_neg hx]
        exact ih hmem

/-- C1: in `msolve_selected`, the blocking clause contains, for each
projection entry given as a positive literal whose variable has a definite
value `b` in the current model, exactly the literal on that variable that
falsifies `b` (never the opposite literal), and every blocking-clause
literal stems from a positive projection entry — negative projection
entries contribute nothing. -/
theorem C1_blocking_clause (var_lits : List Lit) (model : List LBool) :
    (∀ l ∈ var_lits, l.sign = false → ∀ b : Bool,
      model.getD l.var .lundef = boolToLbool b →
        (⟨l.var, b⟩ : Lit) ∈ ban_solution var_lits model ∧
        (⟨l.var, !b⟩ : Lit) ∉ ban_solution var_lits model ∧
        litTruth b ⟨l.var, b⟩ = false) ∧
    (∀ bl ∈ ban_solution var_lits model,
      ∃ l ∈ var_lits, l.sign = false ∧
        bl = ⟨l.var, model.getD l.var .lundef == .ltrue⟩) := by
  constructor
  · intro l hl hs b hb
    refine ⟨?_, ?_, ?_⟩
    · have h := @ban_solution_mem_of var_lits model l hl hs
      rwa [hb, boolToLbool_beq_ltrue] at h
    · intro hmem
      obtain ⟨l', hl', hs', heq⟩ := ban_solution_mem hmem
      rw [Lit.mk.injEq] at heq
      obtain ⟨hv, hsgn⟩ := heq
      rw [← hv, hb, boolToLbool_beq_ltrue] at hsgn
      cases b <;> simp at hsgn
    · simp [litTruth]
  · exact fun bl hbl => ban_solution_mem hbl

theorem C1_blocking_clause_witness :
    (⟨0, true⟩ : Lit) ∈ ban_solution [⟨0, false⟩, ⟨1, true⟩] [.ltrue, .lfalse] ∧
    (⟨0, !true⟩ : Lit) ∉ ban_solution [⟨0, false⟩, ⟨1, true⟩] [.ltrue, .lfalse] ∧
    litTruth true ⟨0, true⟩ = false :=
  (C1_blocking_clause [⟨0, false⟩, ⟨1, true⟩] [.ltrue, .lfalse]).1
    ⟨0, false⟩ (by decide) rfl true rfl

/-! ### Literal codec (`convert_lit_to_sign_and_var`) -/

/-- C6 counterexample: the claim says decoding any `v` with
`|v| > INT_MAX/2` fails with a ValueError, but the source only rejects
`val < INT_MIN/2 = -1073741824`, so `v = -1073741824`, whose magnitude
exceeds `INT_MAX/2 = 1073741823`, decodes successfully. -/
theorem C6_codec_counterexample :
    ((Int.natAbs (-1073741824) : Int) > INT_MAX_HALF) ∧
    convert_lit_to_sign_and_var (.int (-1073741824)) = .ok (1073741823, true) := by
  exact ⟨by decide, rfl⟩

/-- C6 (amended): decoding a non-integer fails with a TypeError; decoding 0
fails with a ValueError; decoding `v` with `v > INT_MAX/2` or
`v < INT_MIN/2` (one more in magnitude on the negative side) fails with a
ValueError; and every integer `v` with `1 ≤ |v|` inside
`[INT_MIN/2, INT_MAX/2]` decodes to `(|v| - 1, v < 0)` and re-encodes to
`v` exactly. -/
theorem C6_codec (v : Int) :
    convert_lit_to_sign_and_var .nonInt = .error .typeError ∧
    convert_lit_to_sign_and_var (.int 0) = .error .valueError ∧
    (v > INT_MAX_HALF ∨ v < INT_MIN_HALF →
      convert_lit_to_sign_and_var (.int v) = .error .valueError) ∧
    (1 ≤ v.natAbs → INT_MIN_HALF ≤ v → v ≤ INT_MAX_HALF →
      convert_lit_to_sign_and_var (.int v) = .ok (v.natAbs - 1, decide (v < 0)) ∧
      encodeLit (v.natAbs - 1) (decide (v < 0)) = v) := by
  refine ⟨rfl, rfl, ?_, ?_⟩
  · intro h
    have hv : v ≠ 0 := by
      unfold INT_MAX_HALF INT_MIN_HALF at h
      omega
    simp [convert_lit_to_sign_and_var, hv, h]
  · intro h1 h2 h3
    have hv : v ≠ 0 := by omega
    have hr : ¬(v > INT_MAX_HALF ∨ v < INT_MIN_HALF) := by
      push_neg
      exact ⟨h3, h2⟩
    constructor
    · simp [convert_lit_to_sign_and_var, hv, hr]
    · by_cases hneg : v < 0
      · rw [encodeLit, if_pos (by simpa using hneg)]
        omega
      · rw [encodeLit, if_neg (by simpa using hneg)]
        omega

theorem C6_codec_witness :
    convert_lit_to_sign_and_var (.int (-5)) =
      .ok ((-5 : Int).natAbs - 1, decide ((-5 : Int) < 0)) ∧
    encodeLit ((-5 : Int).natAbs - 1) (decide ((-5 : Int) < 0)) = -5 :=
  (C6_codec (-5)).2.2.2 (by decide) (by decide) (by decide)

end Pycryptosat

namespace Pycryptosat

/-! ### Solution renderings (`get_solution` / `get_raw_solution`) -/

/-- Value of a raw-rendering slot as a function of the model entry. -/
def rawSlot (e : LBool) (v : Nat) : Option Int :=
  match e with
  | .ltrue => some ((v : Int) + 1)
  | .lfalse => some (-((v : Int) + 1))
  | .lundef => none

/-- Value of a dense-rendering slot as a function of the model entry. -/
def denseSlot (e : LBool) : Option Bool :=
  match e with
  | .ltrue => some true
  | .lfalse => some false
  | .lundef => none

theorem raw_slot_eq (model : List LBool) (v : Nat) :
    (if model.getD v .lundef ≠ .lundef then
      some (((v : Int) + 1) * (if model.getD v .lundef == .ltrue then 1 else -1))
    else none) = rawSlot (model.getD v .lundef) v := by
  cases model.getD v .lundef with
  | ltrue => rw [if_pos (by decide), if_pos (by decide), mul_one]; rfl
  | lfalse =>
    rw [if_pos (by decide), if_neg (by decide)]
    show some _ = some _
    congr 1
    ring
  | lundef => rw [if_neg (by simp)]; rfl

theorem raw_getD (n : Nat) (model : List LBool) (v : Nat) (h : v < n) :
    (get_raw_solution n model).getD v (some 0) = rawSlot (model.getD v .lundef) v := by
  unfold get_raw_solution
  rw [getD_map_range _ n v (some 0) h]
  exact raw_slot_eq model v

theorem raw_mem (n : Nat) (model : List LBool) (x : Int) :
    some x ∈ get_raw_solution n model ↔
      ∃ v, v < n ∧ rawSlot (model.getD v .lundef) v = some x := by
  unfold get_raw_solution
  rw [List.mem_map]
  constructor
  · rintro ⟨v, hv, hx⟩
    rw [List.mem_range] at hv
    rw [raw_slot_eq model v] at hx
    exact ⟨v, hv, hx⟩
  · rintro ⟨v, hv, hx⟩
    exact ⟨v, List.mem_range.mpr hv, by rw [raw_slot_eq model v]; exact hx⟩

theorem dense_getD (n : Nat) (model : List LBool) (j : Nat) (h : j < n) :
    (get_solution n model).getD (j + 1) none = denseSlot (model.getD j .lundef) := by
  unfold get_solution
  rw [List.getD_cons_succ]
  rw [getD_map_range _ n j none h]
  cases model.getD j .lundef <;> rfl

/-- C2: for a model of a satisfiable solve, the dense and sparse/raw
renderings agree: dense slot `i` (`1 ≤ i ≤ nVars`) is true iff the raw
result contains literal `+i`, false iff it contains `-i`, and a variable
unassigned in the model renders as the unassigned marker in the dense slot
and leaves the raw slot with no literal. -/
theorem C2_renderings (n : Nat) (model : List LBool) (i : Nat)
    (h1 : 1 ≤ i) (h2 : i ≤ n) :
    ((get_solution n model).getD i none = some true ↔
      some (i : Int) ∈ get_raw_solution n model) ∧
    ((get_solution n model).getD i none = some false ↔
      some (-(i : Int)) ∈ get_raw_solution n model) ∧
    (model.getD (i - 1) .lundef = .lundef →
      (get_solution n model).getD i none = none ∧
      (get_raw_solution n model).getD (i - 1) (some 0) = none) := by
  obtain ⟨j, rfl⟩ : ∃ j, i = j + 1 := ⟨i - 1, by omega⟩
  have hj : j < n := by omega
  have hd := dense_getD n model j hj
  refine ⟨?_, ?_, ?_⟩
  · rw [hd, raw_mem]
    constructor
    · intro h
      refine ⟨j, hj, ?_⟩
      cases hc : model.getD j .lundef <;> rw [hc] at hd h
      · exact congrArg some (show ((j : Int) + 1) = ((j + 1 : Nat) : Int) by omega)
      · exact absurd h (by simp [denseSlot])
      · exact absurd h (by simp [denseSlot])
    · rintro ⟨v, hv, hx⟩
      cases hcv : model.getD v .lundef <;> rw [hcv] at hx
      · rw [rawSlot, Option.some.injEq] at hx
        have hvj : v = j := by omega
        rw [hvj] at hcv
        rw [hcv]
        rfl
      · rw [rawSlot, Option.some.injEq] at hx
        omega
      · exact absurd hx (by simp [rawSlot])
  · rw [hd, raw_mem]
    constructor
    · intro h
      refine ⟨j, hj, ?_⟩
      cases hc : model.getD j .lundef <;> rw [hc] at hd h
      · exact absurd h (by simp [denseSlot])
      · exact congrArg some (show -((j : Int) + 1) = -((j + 1 : Nat) : Int) by omega)
      · exact absurd h (by simp [denseSlot])
    · rintro ⟨v, hv, hx⟩
      cases hcv : model.getD v .lundef <;> rw [hcv] at hx
      · rw [rawSlot, Option.some.injEq] at hx
        omega
      · rw [rawSlot, Option.some.injEq] at hx
        have hvj : v = j := by omega
        rw [hvj] at hcv
        rw [hcv]
        rfl
      · exact absurd hx (by simp [rawSlot])
  · intro hu
    have hju : j + 1 - 1 = j := by omega
    rw [hju] at hu ⊢
    refine ⟨?_, ?_⟩
    · rw [hd, hu]; rfl
    · rw [raw_getD n model j hj, hu]; rfl

theorem C2_renderings_witness :
    ((get_solution 2 [.ltrue, .lundef]).getD 1 none = some true ↔
      some (1 : Int) ∈ get_raw_solution 2 [.ltrue, .lundef]) ∧
    ((get_solution 2 [.ltrue, .lundef]).getD 1 none = some false ↔
      some (-(1 : Int)) ∈ get_raw_solution 2 [.ltrue, .lundef]) ∧
    ([LBool.ltrue, LBool.lundef].getD (1 - 1) .lundef = .lundef →
      (get_solution 2 [.ltrue, .lundef]).getD 1 none = none ∧
      (get_raw_solution 2 [.ltrue, .lundef]).getD (1 - 1) (some 0) = none) :=
  C2_renderings 2 [.ltrue, .lundef] 1 (by decide) (by decide)

end Pycryptosat

namespace Pycryptosat

/-! ### Flat-buffer ingestion (`_add_clauses_from_array`) -/

theorem zeroRuns_ne_nil (arr : List Int) : zeroRuns arr ≠ [] := by
  induction arr with
  | nil => simp [zeroRuns]
  | cons v rest ih =>
    unfold zeroRuns
    by_cases hv : v = 0
    · simp [hv]
    · rw [if_neg hv]
      rcases zeroRuns rest with _ | ⟨r, rs⟩ <;> simp

theorem commit_run_clauses (s : SolverState) (lits : List Lit) (mv : Nat) :
    (commit_run s lits mv).clauses = s.clauses ++ (if lits = [] then [] else [lits]) := by
  unfold commit_run engine_add_clause
  by_cases h : lits = []
  · simp [h]
  · by_cases h2 : mv ≥ s.numVars <;> simp [h, h2]

theorem runsToClauses_nilrun (lits : List Lit) (runs : List (List Int)) (h : runs ≠ []) :
    runsToClauses lits ([] :: runs) =
      (if lits = [] then [] else [lits]) ++ runsToClauses [] runs := by
  rcases runs with _ | ⟨r, rs⟩
  · exact absurd rfl h
  · unfold runsToClauses
    by_cases hl : lits = [] <;>
      simp [hl, decodeRun, List.filter_cons]

theorem array_loop_spec (arr : List Int) :
    ∀ (s : SolverState) (lits : List Lit) (mv : Nat),
      (∀ v ∈ arr, INT_MIN_HALF ≤ v ∧ v ≤ INT_MAX_HALF) →
      (array_loop s lits mv arr).2 = .ok () ∧
      ((array_loop s lits mv arr).1).clauses =
        s.clauses ++ runsToClauses lits (zeroRuns arr) := by
  induction arr with
  | nil =>
    intro s lits mv _
    refine ⟨rfl, ?_⟩
    show (commit_run s lits mv).clauses = _
    rw [commit_run_clauses]
    unfold zeroRuns runsToClauses
    by_cases h : lits = [] <;> simp [h, decodeRun]
  | cons v rest ih =>
    intro s lits mv hr
    have hv := hr v (List.mem_cons_self v rest)
    have hrest : ∀ x ∈ rest, INT_MIN_HALF ≤ x ∧ x ≤ INT_MAX_HALF :=
      fun x hx => hr x (List.mem_cons_of_mem v hx)
    by_cases h0 : v = 0
    · subst h0
      have hstep : array_loop s lits mv (0 :: rest) =
          array_loop (commit_run s lits mv) [] 0 rest := by
        rw [array_loop]
        rw [if_pos rfl]
      obtain ⟨hok, hcl⟩ := ih (commit_run s lits mv) [] 0 hrest
      rw [hstep]
      refine ⟨hok, ?_⟩
      rw [hcl, commit_run_clauses]
      have hz : zeroRuns ((0 : Int) :: rest) = [] :: zeroRuns rest := by
        simp [zeroRuns]
      rw [hz, runsToClauses_nilrun lits (zeroRuns rest) (zeroRuns_ne_nil rest),
        List.append_assoc]
    · have hrange : ¬(v > INT_MAX_HALF ∨ v < INT_MIN_HALF) := by
        push_neg
        exact ⟨hv.2, hv.1⟩
      have hstep : array_loop s lits mv (v :: rest) =
          array_loop s (lits ++ [array_lit v]) (max (v.natAbs - 1) mv) rest := by
        rw [array_loop]
        rw [if_neg h0, if_neg hrange]
      obtain ⟨hok, hcl⟩ := ih s (lits ++ [array_lit v]) (max (v.natAbs - 1) mv) hrest
      rw [hstep]
      refine ⟨hok, ?_⟩
      rw [hcl]
      congr 1
      obtain ⟨r, rs, hr2⟩ : ∃ r rs, zeroRuns rest = r :: rs := by
        rcases hzz : zeroRuns rest with _ | ⟨r, rs⟩
        · exact absurd hzz (zeroRuns_ne_nil rest)
        · exact ⟨r, rs, rfl⟩
      have hz : zeroRuns (v :: rest) = (v :: r) :: rs := by
        simp [zeroRuns, h0, hr2]
      rw [hz, hr2]
      unfold runsToClauses
      simp [decodeRun, List.append_assoc]

/-- C3: flat-buffer ingestion commits each maximal non-zero run between
zero separators as one clause and skips empty runs (no empty clause);
`[1, -2, 0, 3, 0]` commits exactly `{1, -2}` and `{3}`; and a non-empty
buffer whose last element is not 0 fails with a ValueError having
committed nothing from that call. -/
theorem C3_flat_buffer (s : SolverState) (arr : List Int) :
    (arr ≠ [] → arr.getLast? ≠ some 0 →
      _add_clauses_from_array s arr = (s, .error .valueError)) ∧
    ((∀ v ∈ arr, INT_MIN_HALF ≤ v ∧ v ≤ INT_MAX_HALF) → arr.getLast? = some 0 →
      (_add_clauses_from_array s arr).2 = .ok () ∧
      ((_add_clauses_from_array s arr).1).clauses =
        s.clauses ++ runsToClauses [] (zeroRuns arr)) ∧
    (_add_clauses_from_array freshSolver [1, -2, 0, 3, 0] =
      ({ numVars := 3,
         clauses := [[⟨0, false⟩, ⟨1, true⟩], [⟨2, false⟩]],
         xorClauses := [] }, .ok ())) ∧
    (runsToClauses [] (zeroRuns [1, -2, 0, 3, 0]) =
      [[⟨0, false⟩, ⟨1, true⟩], [⟨2, false⟩]]) ∧
    (_add_clauses_from_array s [1, -2, 3] = (s, .error .valueError)) := by
  refine ⟨?_, ?_, rfl, rfl, rfl⟩
  · intro h1 h2
    unfold _add_clauses_from_array
    rw [if_neg h1, if_pos h2]
  · intro hr hlast
    have h1 : arr ≠ [] := by
      intro he
      rw [he] at hlast
      exact absurd hlast (by simp)
    unfold _add_clauses_from_array
    rw [if_neg h1, if_neg (show ¬arr.getLast? ≠ some 0 by simp [hlast])]
    exact array_loop_spec arr s [] 0 hr

theorem C3_flat_buffer_witness :
    (_add_clauses_from_array freshSolver [5, 7] = (freshSolver, .error .valueError)) ∧
    ((_add_clauses_from_array freshSolver [1, -2, 0, 3, 0]).2 = .ok () ∧
      ((_add_clauses_from_array freshSolver [1, -2, 0, 3, 0]).1).clauses =
        freshSolver.clauses ++ runsToClauses [] (zeroRuns [1, -2, 0, 3, 0])) :=
  ⟨(C3_flat_buffer freshSolver [5, 7]).1 (by decide) (by decide),
   (C3_flat_buffer freshSolver [1, -2, 0, 3, 0]).2.1 (by decide) (by decide)⟩

end Pycryptosat

namespace Pycryptosat

/-! ### Variable-space growth infrastructure -/

/-- One engine state extends another: the variable space has not shrunk
and the committed constraint lists have only been appended to. -/
def Grows (s t : SolverState) : Prop :=
  s.numVars ≤ t.numVars ∧ s.clauses <+: t.clauses ∧ s.xorClauses <+: t.xorClauses

theorem Grows.rfl (s : SolverState) : Grows s s :=
  ⟨le_refl _, List.prefix_rfl, List.prefix_rfl⟩

theorem Grows.trans {a b c : SolverState} (h1 : Grows a b) (h2 : Grows b c) :
    Grows a c :=
  ⟨le_trans h1.1 h2.1, h1.2.1.trans h2.2.1, h1.2.2.trans h2.2.2⟩

theorem engine_add_clause_grows (s : SolverState) (lits : List Lit) :
    Grows s (engine_add_clause s lits) :=
  ⟨le_refl _, List.prefix_append _ _, List.prefix_rfl⟩

theorem foldr_max_shift (l : List Lit) (a b : Nat) :
    l.foldr (fun x acc => max x.var acc) (max a b) =
      max a (l.foldr (fun x acc => max x.var acc) b) := by
  induction l with
  | nil => rfl
  | cons x xs ih =>
    simp only [List.foldr_cons, ih]
    omega

theorem parse_clause_loop_ext :
    ∀ (xs : List PyVal) (lits : List Lit) (maxv : Nat) (lits' : List Lit) (maxv' : Nat),
      parse_clause_loop xs lits maxv = .ok (lits', maxv') →
      ∃ ext, lits' = lits ++ ext ∧
        maxv' = ext.foldr (fun l acc => max l.var acc) maxv := by
  intro xs
  induction xs with
  | nil =>
    intro lits maxv lits' maxv' h
    rw [parse_clause_loop] at h
    cases h
    exact ⟨[], by simp, rfl⟩
  | cons x xs ih =>
    intro lits maxv lits' maxv' h
    rw [parse_clause_loop] at h
    cases hd : convert_lit_to_sign_and_var x with
    | error e =>
      rw [hd] at h
      cases h
    | ok p =>
      obtain ⟨var, sign⟩ := p
      rw [hd] at h
      obtain ⟨ext', hl, hm⟩ := ih (lits ++ [⟨var, sign⟩]) (max var maxv) lits' maxv' h
      refine ⟨⟨var, sign⟩ :: ext', by simp [hl], ?_⟩
      rw [hm, List.foldr_cons]
      exact foldr_max_shift ext' var maxv

theorem maxVarIndex_ge {l : Lit} {lits : List Lit} (h : l ∈ lits) :
    l.var ≤ maxVarIndex lits := by
  induction lits with
  | nil => simp at h
  | cons x xs ih =>
    rcases List.mem_cons.mp h with rfl | hm
    · unfold maxVarIndex
      simp only [List.foldr_cons]
      omega
    · have := ih hm
      unfold maxVarIndex at this ⊢
      simp only [List.foldr_cons]
      omega

theorem parse_clause_error {s : SolverState} {c : List PyVal} {s' : SolverState}
    {e : PyErr} (h : parse_clause s c = (s', .error e)) : s' = s := by
  unfold parse_clause at h
  cases hpl : parse_clause_loop c [] 0 with
  | error e2 =>
    rw [hpl] at h
    exact (Prod.mk.injEq _ _ _ _ ▸ h).1.symm
  | ok p =>
    obtain ⟨lits0, maxv⟩ := p
    rw [hpl] at h
    dsimp only at h
    by_cases hc : lits0 ≠ [] ∧ maxv ≥ s.numVars
    · rw [if_pos hc] at h
      cases h
    · rw [if_neg hc] at h
      cases h

theorem parse_clause_ok {s : SolverState} {c : List PyVal} {s' : SolverState}
    {lits : List Lit} (h : parse_clause s c = (s', .ok lits)) :
    s'.clauses = s.clauses ∧ s'.xorClauses = s.xorClauses ∧
    s'.numVars = (if lits = [] then s.numVars
      else max s.numVars (maxVarIndex lits + 1)) := by
  unfold parse_clause at h
  cases hpl : parse_clause_loop c [] 0 with
  | error e2 =>
    rw [hpl] at h
    cases h
  | ok p =>
    obtain ⟨lits0, maxv⟩ := p
    rw [hpl] at h
    dsimp only at h
    obtain ⟨ext, hext, hmax⟩ := parse_clause_loop_ext c [] 0 lits0 maxv hpl
    rw [List.nil_append] at hext
    have hmvi : maxv = maxVarIndex lits0 := by
      rw [hext]
      exact hmax
    by_cases hc : lits0 ≠ [] ∧ maxv ≥ s.numVars
    · rw [if_pos hc] at h
      have hs := congrArg Prod.fst h
      have hok := congrArg Prod.snd h
      dsimp only at hs hok
      injection hok with hl
      subst hl
      rw [← hs]
      refine ⟨rfl, rfl, ?_⟩
      rw [if_neg hc.1]
      show s.numVars + (maxv - s.numVars + 1) = max s.numVars (maxVarIndex lits0 + 1)
      omega
    · rw [if_neg hc] at h
      have hs := congrArg Prod.fst h
      have hok := congrArg Prod.snd h
      dsimp only at hs hok
      injection hok with hl
      subst hl
      rw [← hs]
      refine ⟨rfl, rfl, ?_⟩
      by_cases he : lits0 = []
      · rw [if_pos he]
      · rw [if_neg he]
        push_neg at hc
        have := hc he
        omega

theorem parse_clause_grows (s : SolverState) (c : List PyVal) :
    Grows s ((parse_clause s c).1) := by
  cases hp : (parse_clause s c).2 with
  | error e =>
    have : parse_clause s c = ((parse_clause s c).1, .error e) := by
      rw [← hp]
    rw [parse_clause_error this]
    exact Grows.rfl s
  | ok lits =>
    have : parse_clause s c = ((parse_clause s c).1, .ok lits) := by
      rw [← hp]
    obtain ⟨h1, h2, h3⟩ := parse_clause_ok this
    refine ⟨?_, h1 ▸ List.prefix_rfl, h2 ▸ List.prefix_rfl⟩
    rw [h3]
    by_cases he : lits = [] <;> simp [he]

theorem _add_clause_grows (s : SolverState) (c : List PyVal) :
    Grows s ((_add_clause s c).1) := by
  unfold _add_clause
  cases hp : parse_clause s c with
  | mk s1 r =>
    cases r with
    | error e =>
      dsimp only
      rw [parse_clause_error hp]
      exact Grows.rfl s
    | ok lits =>
      dsimp only
      have h1 : Grows s s1 := by
        have := parse_clause_grows s c
        rw [hp] at this
        exact this
      exact h1.trans (engine_add_clause_grows s1 lits)

theorem add_clauses_loop_grows :
    ∀ (cls : List (List PyVal)) (s : SolverState),
      Grows s ((add_clauses_loop s cls).1) := by
  intro cls
  induction cls with
  | nil => intro s; exact Grows.rfl s
  | cons c cs ih =>
    intro s
    rw [add_clauses_loop]
    cases hp : _add_clause s c with
    | mk s1 r =>
      have h1 : Grows s s1 := by
        have := _add_clause_grows s c
        rw [hp] at this
        exact this
      cases r with
      | error e => exact h1
      | ok u => exact h1.trans (ih s1)

theorem add_clauses_grows (s : SolverState) (cls : List (List PyVal)) (mv : Int) :
    Grows s ((add_clauses s cls mv).1) := by
  unfold add_clauses
  by_cases h : mv > (s.numVars : Int)
  · rw [if_pos h]
    show Grows s ((add_clauses_loop
      { s with numVars := s.numVars + (mv - (s.numVars : Int)).toNat } cls).1)
    have h1 : Grows s { s with numVars := s.numVars + (mv - (s.numVars : Int)).toNat } :=
      ⟨by show s.numVars ≤ s.numVars + (mv - (s.numVars : Int)).toNat; omega,
       List.prefix_rfl, List.prefix_rfl⟩
    exact h1.trans (add_clauses_loop_grows cls _)
  · rw [if_neg h]
    exact add_clauses_loop_grows cls s

theorem commit_run_grows (s : SolverState) (lits : List Lit) (mv : Nat) :
    Grows s (commit_run s lits mv) := by
  unfold commit_run
  by_cases h : lits ≠ []
  · rw [if_pos h]
    show Grows s (engine_add_clause
      (if mv ≥ s.numVars then { s with numVars := s.numVars + (mv - s.numVars + 1) } else s) lits)
    by_cases h2 : mv ≥ s.numVars
    · rw [if_pos h2]
      have h1 : Grows s { s with numVars := s.numVars + (mv - s.numVars + 1) } :=
        ⟨by show s.numVars ≤ s.numVars + (mv - s.numVars + 1); omega,
         List.prefix_rfl, List.prefix_rfl⟩
      exact h1.trans (engine_add_clause_grows _ lits)
    · rw [if_neg h2]
      exact engine_add_clause_grows s lits
  · rw [if_neg h]
    exact Grows.rfl s

theorem array_loop_grows :
    ∀ (arr : List Int) (s : SolverState) (lits : List Lit) (mv : Nat),
      Grows s ((array_loop s lits mv arr).1) := by
  intro arr
  induction arr with
  | nil => intro s lits mv; exact commit_run_grows s lits mv
  | cons v rest ih =>
    intro s lits mv
    rw [array_loop]
    by_cases h0 : v = 0
    · rw [if_pos h0]
      exact (commit_run_grows s lits mv).trans (ih _ [] 0)
    · rw [if_neg h0]
      by_cases hr : v > INT_MAX_HALF ∨ v < INT_MIN_HALF
      · rw [if_pos hr]
        exact Grows.rfl s
      · rw [if_neg hr]
        exact ih s _ _

theorem _add_clauses_from_array_grows (s : SolverState) (arr : List Int) :
    Grows s ((_add_clauses_from_array s arr).1) := by
  unfold _add_clauses_from_array
  by_cases h1 : arr = []
  · rw [if_pos h1]
    exact Grows.rfl s
  · rw [if_neg h1]
    by_cases h2 : arr.getLast? ≠ some 0
    · rw [if_pos h2]
      exact Grows.rfl s
    · rw [if_neg h2]
      exact array_loop_grows arr s [] 0

theorem parse_xor_clause_grows :
    ∀ (xs : List PyVal) (s : SolverState) (vars : List Nat),
      Grows s ((parse_xor_clause s xs vars).1) := by
  intro xs
  induction xs with
  | nil => intro s vars; exact Grows.rfl s
  | cons x rest ih =>
    intro s vars
    rw [parse_xor_clause]
    cases hd : convert_lit_to_sign_and_var x with
    | error e => exact Grows.rfl s
    | ok p =>
      obtain ⟨var, sign⟩ := p
      dsimp only
      by_cases hs : sign
      · rw [if_pos hs]
        exact Grows.rfl s
      · rw [if_neg hs]
        show Grows s ((parse_xor_clause
          (if var ≥ s.numVars then { s with numVars := var + 1 } else s)
          rest (vars ++ [var])).1)
        by_cases hv : var ≥ s.numVars
        · rw [if_pos hv]
          have h1 : Grows s { s with numVars := var + 1 } :=
            ⟨by show s.numVars ≤ var + 1; omega,
             List.prefix_rfl, List.prefix_rfl⟩
          exact h1.trans (ih _ _)
        · rw [if_neg hv]
          exact ih s _

theorem add_xor_clause_grows (s : SolverState) (c : List PyVal) (rhs : Bool) :
    Grows s ((add_xor_clause s c rhs).1) := by
  unfold add_xor_clause
  cases hp : parse_xor_clause s c [] with
  | mk s1 r =>
    have h1 : Grows s s1 := by
      have := parse_xor_clause_grows c s []
      rw [hp] at this
      exact this
    cases r with
    | error e => exact h1
    | ok vars =>
      exact h1.trans ⟨le_refl _, List.prefix_rfl, List.prefix_append _ _⟩

theorem solve_fst (s : SolverState) (a : Option (List PyVal)) :
    (solve s a).1 = s := by
  cases a with
  | none =>
    simp only [solve]
    cases h : engineSolve s [] <;> simp [h]
  | some asms =>
    simp only [solve]
    cases hp : parse_assumption_lits s.numVars asms [] with
    | error e => simp [hp]
    | ok al =>
      simp only [hp]
      cases h : engineSolve s al <;> simp [h]

theorem msolve_loopF_fst_numVars (f : SolverState → Option (List Bool))
    (v : List Lit) (r : Bool) :
    ∀ (fuel : Nat) (s : SolverState),
      ((msolve_loopF f v r s fuel).1).numVars = s.numVars := by
  intro fuel
  induction fuel with
  | zero => intro s; rfl
  | succ n ih =>
    intro s
    rw [msolve_loopF]
    cases f s with
    | none => rfl
    | some m =>
      dsimp only
      by_cases h : n = 0
      · rw [if_pos h]
      · rw [if_neg h]
        exact ih _

theorem msolve_loopF_grows (f : SolverState → Option (List Bool))
    (v : List Lit) (r : Bool) :
    ∀ (fuel : Nat) (s : SolverState), Grows s ((msolve_loopF f v r s fuel).1) := by
  intro fuel
  induction fuel with
  | zero => intro s; exact Grows.rfl s
  | succ n ih =>
    intro s
    rw [msolve_loopF]
    cases f s with
    | none => exact Grows.rfl s
    | some m =>
      dsimp only
      by_cases h : n = 0
      · rw [if_pos h]
        exact Grows.rfl s
      · rw [if_neg h]
        exact (engine_add_clause_grows s _).trans (ih _)

theorem msolve_selectedF_grows (f : SolverState → Option (List Bool))
    (s : SolverState) (mn : Int) (proj : List PyVal) (r : Bool) :
    Grows s ((msolve_selectedF f s mn proj r).1) := by
  unfold msolve_selectedF
  cases hp : parse_clause s proj with
  | mk s1 pr =>
    have h1 : Grows s s1 := by
      have := parse_clause_grows s proj
      rw [hp] at this
      exact this
    cases pr with
    | error e => exact h1
    | ok var_lits => exact h1.trans (msolve_loopF_grows f var_lits r _ s1)

end Pycryptosat

namespace Pycryptosat

theorem maxVarIndex_lt {lits : List Lit} {n : Nat} (hne : lits ≠ [])
    (h : ∀ l ∈ lits, l.var < n) : maxVarIndex lits < n := by
  induction lits with
  | nil => exact absurd rfl hne
  | cons x xs ih =>
    unfold maxVarIndex
    simp only [List.foldr_cons]
    have hx := h x (List.mem_cons_self x xs)
    by_cases hxs : xs = []
    · subst hxs
      show max x.var (List.foldr _ 0 []) < n
      simp only [List.foldr_nil]
      omega
    · have hrec := ih hxs (fun l hl => h l (List.mem_cons_of_mem x hl))
      unfold maxVarIndex at hrec
      omega

/-- C7: the variable space never shrinks under any operation of the
binding layer; moreover a successfully parsed clause leaves every
referenced variable below `nVars()`, growth is by exactly the deficit
(final size `max old (maxVar+1)`) in the one growth step of the call, and
a clause referencing only variables below `nVars()` leaves the state
unchanged. -/
theorem C7_varspace (s : SolverState) :
    (∀ c, s.numVars ≤ ((_add_clause s c).1).numVars) ∧
    (∀ cls mv, s.numVars ≤ ((add_clauses s cls mv).1).numVars) ∧
    (∀ arr, s.numVars ≤ ((_add_clauses_from_array s arr).1).numVars) ∧
    (∀ c rhs, s.numVars ≤ ((add_xor_clause s c rhs).1).numVars) ∧
    (∀ a, s.numVars ≤ ((solve s a).1).numVars) ∧
    (∀ mn proj rf, s.numVars ≤ ((msolve_selected s mn proj rf).1).numVars) ∧
    (∀ c s' lits, parse_clause s c = (s', .ok lits) →
      (∀ l ∈ lits, l.var < s'.numVars) ∧
      (lits ≠ [] → s'.numVars = max s.numVars (maxVarIndex lits + 1)) ∧
      ((∀ l ∈ lits, l.var < s.numVars) → s' = s)) := by
  refine ⟨fun c => (_add_clause_grows s c).1,
    fun cls mv => (add_clauses_grows s cls mv).1,
    fun arr => (_add_clauses_from_array_grows s arr).1,
    fun c rhs => (add_xor_clause_grows s c rhs).1,
    fun a => by rw [solve_fst],
    fun mn proj rf => (msolve_selectedF_grows _ s mn proj rf).1,
    ?_⟩
  intro c s' lits hp
  obtain ⟨hcl, hxor, hnv⟩ := parse_clause_ok hp
  refine ⟨?_, ?_, ?_⟩
  · intro l hl
    have hle := maxVarIndex_ge hl
    have hne : lits ≠ [] := List.ne_nil_of_mem hl
    rw [hnv, if_neg hne]
    omega
  · intro hne
    rw [hnv, if_neg hne]
  · intro hbelow
    have hnum : s'.numVars = s.numVars := by
      by_cases hne : lits = []
      · rw [hnv, if_pos hne]
      · rw [hnv, if_neg hne]
        have := maxVarIndex_lt hne hbelow
        omega
    exact SolverState.ext hnum hcl hxor

theorem C7_varspace_witness :
    (∀ l ∈ [Lit.mk 2 false], l.var < (⟨3, [], []⟩ : SolverState).numVars) ∧
    ([Lit.mk 2 false] ≠ [] →
      (⟨3, [], []⟩ : SolverState).numVars =
        max freshSolver.numVars (maxVarIndex [Lit.mk 2 false] + 1)) ∧
    ((∀ l ∈ [Lit.mk 2 false], l.var < freshSolver.numVars) →
      (⟨3, [], []⟩ : SolverState) = freshSolver) :=
  (C7_varspace freshSolver).2.2.2.2.2.2 [.int 3] ⟨3, [], []⟩ [⟨2, false⟩] rfl

/-! ### Empty clause forces unsatisfiability (spec-modelled engine) -/

/-- C4: adding an explicitly empty literal sequence through the sequence
form commits an empty clause, and any state whose clause list contains the
empty clause makes the modelled engine (and hence `solve` with no
assumptions) report unsatisfiable. -/
theorem C4_empty_clause (s : SolverState) :
    _add_clause s [] = ({ s with clauses := s.clauses ++ [[]] }, .ok ()) ∧
    (∀ t : SolverState, [] ∈ t.clauses → solve t none = (t, .ok (some false, none))) ∧
    (∀ t : SolverState, [] ∈ t.clauses → ∀ a, engineSolve t a = none) := by
  have hengine : ∀ t : SolverState, [] ∈ t.clauses → ∀ a, engineSolve t a = none := by
    intro t hmem a
    unfold engineSolve
    apply List.find?_eq_none.mpr
    intro m hm hp
    rw [Bool.and_eq_true] at hp
    have h1 := hp.1
    unfold stateSat at h1
    rw [Bool.and_eq_true] at h1
    have h2 := List.all_eq_true.mp h1.1 [] hmem
    simp [clauseSat] at h2
  refine ⟨rfl, ?_, hengine⟩
  intro t hmem
  have h := hengine t hmem []
  simp only [solve, h]

theorem C4_empty_clause_witness :
    solve { numVars := 0, clauses := [[]], xorClauses := [] } none =
      ({ numVars := 0, clauses := [[]], xorClauses := [] }, .ok (some false, none)) :=
  (C4_empty_clause freshSolver).2.1 ⟨0, [[]], []⟩ (by simp)

/-! ### Assumption handling -/

theorem parse_assumption_lits_err :
    ∀ (asms : List PyVal) (n : Nat) (acc : List Lit),
      (∀ x ∈ asms, ∃ p, convert_lit_to_sign_and_var x = .ok p) →
      (∃ x ∈ asms, ∃ p, convert_lit_to_sign_and_var x = .ok p ∧ n ≤ p.1) →
      parse_assumption_lits n asms acc = .error .valueError := by
  intro asms
  induction asms with
  | nil =>
    intro n acc _ hbad
    simp at hbad
  | cons x xs ih =>
    intro n acc hdec hbad
    obtain ⟨⟨var, sign⟩, hx⟩ := hdec x (List.mem_cons_self x xs)
    rw [parse_assumption_lits, hx]
    dsimp only
    by_cases hv : var ≥ n
    · rw [if_pos hv]
    · rw [if_neg hv]
      apply ih n _ (fun y hy => hdec y (List.mem_cons_of_mem x hy))
      obtain ⟨y, hy, p, hp, hn⟩ := hbad
      rcases List.mem_cons.mp hy with rfl | hmem
      · rw [hx] at hp
        injection hp with hpe
        rw [← hpe] at hn
        exact absurd hn hv
      · exact ⟨y, hmem, p, hp, hn⟩

/-- C5: a solve whose assumptions all decode but reference a variable at or
above `nVars()` fails with a ValueError; the assumption path never changes
the engine state (in particular it never grows the variable space); and
assumptions never persist — a later solve with no assumptions behaves
exactly as if the earlier assumptions had never been given. -/
theorem C5_assumptions (s : SolverState) (asms : List PyVal) :
    ((∀ x ∈ asms, ∃ p, convert_lit_to_sign_and_var x = .ok p) →
     (∃ x ∈ asms, ∃ p, convert_lit_to_sign_and_var x = .ok p ∧ s.numVars ≤ p.1) →
     solve s (some asms) = (s, .error .valueError)) ∧
    (∀ a, (solve s a).1 = s) ∧
    (∀ a, solve ((solve s a).1) none = solve s none) := by
  refine ⟨?_, fun a => solve_fst s a, fun a => by rw [solve_fst]⟩
  intro hdec hbad
  have hperr := parse_assumption_lits_err asms s.numVars [] hdec hbad
  simp only [solve, hperr]

theorem C5_assumptions_witness :
    solve freshSolver (some [.int 1]) = (freshSolver, .error .valueError) :=
  (C5_assumptions freshSolver [.int 1]).1
    (fun x hx => by
      rw [List.mem_singleton] at hx
      subst hx
      exact ⟨(0, false), rfl⟩)
    ⟨.int 1, by simp, (0, false), rfl, by decide⟩

end Pycryptosat

namespace Pycryptosat

/-! ### The bulk `max_var` pre-growth (`add_clauses`) -/

theorem parse_clause_snd (s t : SolverState) (c : List PyVal) :
    (parse_clause s c).2 = (parse_clause t c).2 := by
  unfold parse_clause
  cases parse_clause_loop c [] 0 with
  | error e => rfl
  | ok p =>
    obtain ⟨lits, maxv⟩ := p
    dsimp only
    by_cases h1 : lits ≠ [] ∧ maxv ≥ s.numVars
    · rw [if_pos h1]
      by_cases h2 : lits ≠ [] ∧ maxv ≥ t.numVars
      · rw [if_pos h2]
      · rw [if_neg h2]
    · rw [if_neg h1]
      by_cases h2 : lits ≠ [] ∧ maxv ≥ t.numVars
      · rw [if_pos h2]
      · rw [if_neg h2]

theorem _add_clause_rel (s t : SolverState) (c : List PyVal)
    (hcls : s.clauses = t.clauses) (hxor : s.xorClauses = t.xorClauses)
    (hnv : s.numVars ≤ t.numVars) :
    (_add_clause s c).2 = (_add_clause t c).2 ∧
    ((_add_clause t c).1).clauses = ((_add_clause s c).1).clauses ∧
    ((_add_clause t c).1).xorClauses = ((_add_clause s c).1).xorClauses ∧
    ((_add_clause t c).1).numVars = max t.numVars ((_add_clause s c).1).numVars := by
  have hsnd := parse_clause_snd s t c
  unfold _add_clause
  cases hps : parse_clause s c with
  | mk s1 rs =>
    cases hpt : parse_clause t c with
    | mk t1 rt =>
      have hrr : rs = rt := by
        have := hsnd
        rw [hps, hpt] at this
        exact this
      subst hrr
      cases rs with
      | error e =>
        dsimp only
        rw [parse_clause_error hps, parse_clause_error hpt]
        exact ⟨rfl, hcls.symm, hxor.symm, by omega⟩
      | ok lits =>
        obtain ⟨hc1, hx1, hn1⟩ := parse_clause_ok hps
        obtain ⟨hc2, hx2, hn2⟩ := parse_clause_ok hpt
        dsimp only
        unfold engine_add_clause
        refine ⟨rfl, ?_, ?_, ?_⟩
        · show t1.clauses ++ [lits] = s1.clauses ++ [lits]
          rw [hc1, hc2, hcls]
        · show t1.xorClauses = s1.xorClauses
          rw [hx1, hx2, hxor]
        · show t1.numVars = max t.numVars s1.numVars
          rw [hn1, hn2]
          by_cases he : lits = []
          · rw [if_pos he, if_pos he]
            omega
          · rw [if_neg he, if_neg he]
            omega

theorem add_clauses_loop_rel :
    ∀ (cls : List (List PyVal)) (s t : SolverState),
      s.clauses = t.clauses → s.xorClauses = t.xorClauses → s.numVars ≤ t.numVars →
      (add_clauses_loop s cls).2 = (add_clauses_loop t cls).2 ∧
      ((add_clauses_loop t cls).1).clauses = ((add_clauses_loop s cls).1).clauses ∧
      ((add_clauses_loop t cls).1).xorClauses = ((add_clauses_loop s cls).1).xorClauses ∧
      ((add_clauses_loop t cls).1).numVars =
        max t.numVars ((add_clauses_loop s cls).1).numVars := by
  intro cls
  induction cls with
  | nil =>
    intro s t hcls hxor hnv
    exact ⟨rfl, hcls.symm, hxor.symm, by show t.numVars = max t.numVars s.numVars; omega⟩
  | cons c cs ih =>
    intro s t hcls hxor hnv
    obtain ⟨hrsnd, hrcls, hrxor, hrnum⟩ := _add_clause_rel s t c hcls hxor hnv
    rw [add_clauses_loop, add_clauses_loop]
    cases hps : _add_clause s c with
    | mk s1 rs =>
      cases hpt : _add_clause t c with
      | mk t1 rt =>
        have hrr : rs = rt := by
          have := hrsnd
          rw [hps, hpt] at this
          exact this
        subst hrr
        rw [hps, hpt] at hrcls hrxor hrnum
        dsimp only at hrcls hrxor hrnum
        cases rs with
        | error e => exact ⟨rfl, hrcls, hrxor, hrnum⟩
        | ok u =>
          dsimp only
          have hih := ih s1 t1 hrcls.symm hrxor.symm (by omega)
          refine ⟨hih.1, hih.2.1, hih.2.2.1, ?_⟩
          rw [hih.2.2.2, hrnum]
          have hg := (add_clauses_loop_grows cs s1).1
          omega

/-- C8 counterexample: supplying `max_var` larger than any referenced
variable changes the final committed state — the variable space ends up
larger than without it. -/
theorem C8_max_var_counterexample :
    ((add_clauses freshSolver [[.int 1]] 2).1).numVars = 2 ∧
    ((add_clauses freshSolver [[.int 1]] 0).1).numVars = 1 ∧
    add_clauses freshSolver [[.int 1]] 2 ≠ add_clauses freshSolver [[.int 1]] 0 :=
  ⟨rfl, rfl, fun h =>
    absurd (congrArg (fun p => (p.1).numVars) h) (by decide)⟩

/-- C8 (amended): the `max_var` pre-growth never changes the committed
clauses, XOR clauses or the outcome of the bulk call; the only possible
difference is the final variable-space size, which with `max_var` supplied
is the maximum of the pre-grown size and the size reached without it —
so the final state is unchanged exactly when `max_var` does not exceed the
size the ingestion reaches on its own. -/
theorem C8_max_var (s : SolverState) (cls : List (List PyVal)) (m : Int) :
    ((add_clauses s cls m).2 = (add_clauses s cls 0).2) ∧
    (((add_clauses s cls m).1).clauses = ((add_clauses s cls 0).1).clauses) ∧
    (((add_clauses s cls m).1).xorClauses = ((add_clauses s cls 0).1).xorClauses) ∧
    (((add_clauses s cls m).1).numVars =
      max (if m > (s.numVars : Int) then m.toNat else s.numVars)
        (((add_clauses s cls 0).1).numVars)) ∧
    (m ≤ ((((add_clauses s cls 0).1).numVars : Nat) : Int) →
      add_clauses s cls m = add_clauses s cls 0) := by
  have h0 : add_clauses s cls 0 = add_clauses_loop s cls := by
    unfold add_clauses
    rw [if_neg (by omega)]
  by_cases hm : m > (s.numVars : Int)
  · have hpre : add_clauses s cls m =
        add_clauses_loop { s with numVars := s.numVars + (m - (s.numVars : Int)).toNat } cls := by
      unfold add_clauses
      rw [if_pos hm]
    have hs0 : s.numVars ≤ s.numVars + (m - (s.numVars : Int)).toNat := by omega
    have hrel := add_clauses_loop_rel cls s
      { s with numVars := s.numVars + (m - (s.numVars : Int)).toNat } rfl rfl hs0
    have hm2 : s.numVars + (m - (s.numVars : Int)).toNat = m.toNat := by omega
    rw [hpre, h0]
    refine ⟨hrel.1.symm, hrel.2.1, hrel.2.2.1, ?_, ?_⟩
    · rw [if_pos hm, hrel.2.2.2]
      show max ({ s with numVars := s.numVars + (m - (s.numVars : Int)).toNat} : SolverState).numVars _ = _
      rw [show ({ s with numVars := s.numVars + (m - (s.numVars : Int)).toNat} : SolverState).numVars = m.toNat from hm2]
    · intro hle
      have hnum : ((add_clauses_loop
          { s with numVars := s.numVars + (m - (s.numVars : Int)).toNat } cls).1).numVars =
          ((add_clauses_loop s cls).1).numVars := by
        rw [hrel.2.2.2]
        show max ({ s with numVars := s.numVars + (m - (s.numVars : Int)).toNat} : SolverState).numVars _ = _
        rw [show ({ s with numVars := s.numVars + (m - (s.numVars : Int)).toNat} : SolverState).numVars = m.toNat from hm2]
        omega
      exact Prod.ext (SolverState.ext hnum hrel.2.1 hrel.2.2.1) hrel.1.symm
  · have hpre : add_clauses s cls m = add_clauses_loop s cls := by
      unfold add_clauses
      rw [if_neg hm]
    rw [hpre, h0]
    refine ⟨rfl, rfl, rfl, ?_, fun _ => rfl⟩
    rw [if_neg hm]
    have := (add_clauses_loop_grows cls s).1
    omega

theorem C8_max_var_witness :
    add_clauses freshSolver [[.int 3]] 2 = add_clauses freshSolver [[.int 3]] 0 :=
  (C8_max_var freshSolver [[.int 3]] 2).2.2.2.2 (by decide)

end Pycryptosat

namespace Pycryptosat

/-! ### Enumeration (`msolve_selected`) -/

theorem allAssignments_length : ∀ {n : Nat} {m : List Bool},
    m ∈ allAssignments n → m.length = n := by
  intro n
  induction n with
  | zero =>
    intro m h
    rw [allAssignments, List.mem_singleton] at h
    subst h
    rfl
  | succ k ih =>
    intro m h
    rw [allAssignments, List.mem_flatMap] at h
    obtain ⟨a, ha, hm⟩ := h
    rcases List.mem_cons.mp hm with rfl | hm2
    · rw [List.length_cons, ih ha]
    · rw [List.mem_singleton] at hm2
      subst hm2
      rw [List.length_cons, ih ha]

theorem engineSolve_sound {s : SolverState} {a : List Lit} {m : List Bool}
    (h : engineSolve s a = some m) :
    stateSat m s = true ∧ a.all (litSat m) = true ∧ m ∈ allAssignments s.numVars := by
  unfold engineSolve at h
  have h1 := List.find?_some h
  have h2 := List.mem_of_find?_eq_some h
  rw [Bool.and_eq_true] at h1
  exact ⟨h1.1, h1.2, h2⟩

theorem stateSat_add_clause {m : List Bool} {s : SolverState} {cl : List Lit}
    (h : stateSat m (engine_add_clause s cl) = true) :
    stateSat m s = true ∧ clauseSat m cl = true := by
  unfold stateSat engine_add_clause at h
  rw [Bool.and_eq_true] at h
  obtain ⟨hc, hx⟩ := h
  rw [List.all_append, Bool.and_eq_true] at hc
  obtain ⟨hc1, hc2⟩ := hc
  simp only [List.all_cons, List.all_nil, Bool.and_true] at hc2
  refine ⟨?_, hc2⟩
  unfold stateSat
  rw [Bool.and_eq_true]
  exact ⟨hc1, hx⟩

theorem getD_map_boolToLbool (m : List Bool) (i : Nat) (h : i < m.length) :
    (m.map boolToLbool).getD i .lundef = boolToLbool (m.getD i false) := by
  rw [List.getD_eq_getElem?_getD, List.getElem?_map, List.getD_eq_getElem?_getD,
    List.getElem?_eq_getElem h]
  simp

theorem raw_getD_any (n : Nat) (model : List LBool) (v : Nat) (d : Option Int)
    (h : v < n) :
    (get_raw_solution n model).getD v d = rawSlot (model.getD v .lundef) v := by
  unfold get_raw_solution
  rw [getD_map_range _ n v d h]
  exact raw_slot_eq model v

theorem solAssign_render (r : Bool) (n : Nat) (m : List Bool) (v : Nat)
    (hv : v < n) (hlen : m.length = n) :
    solAssign (render r n (m.map boolToLbool)) v = some (m.getD v false) := by
  have hbm : (m.map boolToLbool).getD v .lundef = boolToLbool (m.getD v false) :=
    getD_map_boolToLbool m v (by omega)
  cases r with
  | false =>
    rw [render, if_neg (by simp)]
    show (get_solution n (m.map boolToLbool)).getD (v + 1) none = _
    rw [dense_getD n _ v hv, hbm]
    cases m.getD v false <;> rfl
  | true =>
    rw [render, if_pos rfl]
    show (match (get_raw_solution n (m.map boolToLbool)).getD v none with
      | some x => some (decide (0 < x))
      | none => none) = some (m.getD v false)
    rw [raw_getD_any n _ v none hv, hbm]
    cases m.getD v false
    · exact congrArg some (decide_eq_false (by omega))
    · exact congrArg some (decide_eq_true (by omega))

theorem clauseSat_ban {m' m0 : List Bool} {var_lits : List Lit} {n : Nat}
    (hvar : ∀ l ∈ var_lits, l.var < n) (hlen0 : m0.length = n)
    (h : clauseSat m' (ban_solution var_lits (m0.map boolToLbool)) = true) :
    ∃ l ∈ var_lits, l.sign = false ∧
      m'.getD l.var false = !(m0.getD l.var false) := by
  unfold clauseSat at h
  rw [List.any_eq_true] at h
  obtain ⟨bl, hbl, hsat⟩ := h
  obtain ⟨l, hl, hsign, hbleq⟩ := ban_solution_mem hbl
  refine ⟨l, hl, hsign, ?_⟩
  subst hbleq
  unfold litSat at hsat
  dsimp only at hsat
  rw [getD_map_boolToLbool m0 l.var (by rw [hlen0]; exact hvar l hl),
    boolToLbool_beq_ltrue] at hsat
  cases hm' : m'.getD l.var false <;> cases hm0 : m0.getD l.var false <;>
    rw [hm', hm0] at hsat
  · exact absurd hsat (by decide)
  · rfl
  · rfl
  · exact absurd hsat (by decide)

theorem msolve_loop_sols (var_lits : List Lit) (r : Bool) :
    ∀ (fuel : Nat) (s : SolverState) (sol : PySolution),
      sol ∈ (msolve_loopF (fun st => engineSolve st []) var_lits r s fuel).2 →
      ∃ m, m ∈ allAssignments s.numVars ∧ stateSat m s = true ∧
        sol = render r s.numVars (m.map boolToLbool) := by
  intro fuel
  induction fuel with
  | zero =>
    intro s sol h
    simp [msolve_loopF] at h
  | succ n ih =>
    intro s sol h
    rw [msolve_loopF] at h
    cases he : engineSolve s [] with
    | none =>
      rw [he] at h
      simp at h
    | some m0 =>
      rw [he] at h
      dsimp only at h
      obtain ⟨hsat0, -, hmem0⟩ := engineSolve_sound he
      by_cases hn : n = 0
      · rw [if_pos hn] at h
        rw [List.mem_singleton] at h
        exact ⟨m0, hmem0, hsat0, h⟩
      · rw [if_neg hn] at h
        rcases List.mem_cons.mp h with rfl | htail
        · exact ⟨m0, hmem0, hsat0, rfl⟩
        · obtain ⟨m, hmm, hms, hrender⟩ := ih _ sol htail
          exact ⟨m, hmm, (stateSat_add_clause hms).1, hrender⟩

theorem msolve_loop_pairwise (var_lits : List Lit) (r : Bool) :
    ∀ (fuel : Nat) (s : SolverState),
      (∀ l ∈ var_lits, l.var < s.numVars) →
      ((msolve_loopF (fun st => engineSolve st []) var_lits r s fuel).2).Pairwise
        (DiffOn var_lits) := by
  intro fuel
  induction fuel with
  | zero =>
    intro s _
    simp [msolve_loopF]
  | succ n ih =>
    intro s hvar
    rw [msolve_loopF]
    cases he : engineSolve s [] with
    | none => exact List.Pairwise.nil
    | some m0 =>
      dsimp only
      by_cases hn : n = 0
      · rw [if_pos hn]
        simp
      · rw [if_neg hn]
        dsimp only
        rw [List.pairwise_cons]
        obtain ⟨hsat0, -, hmem0⟩ := engineSolve_sound he
        have hlen0 : m0.length = s.numVars := allAssignments_length hmem0
        constructor
        · intro sol hsol
          obtain ⟨m', hmem', hsat', hrender'⟩ := msolve_loop_sols var_lits r n _ sol hsol
          have hnv1 : (engine_add_clause s
              (ban_solution var_lits (m0.map boolToLbool))).numVars = s.numVars := rfl
          rw [hnv1] at hrender'
          have hlen' : m'.length = s.numVars := by
            have := allAssignments_length hmem'
            rw [hnv1] at this
            exact this
          have hban := (stateSat_add_clause hsat').2
          obtain ⟨l, hl, hsign, hdiff⟩ := clauseSat_ban hvar hlen0 hban
          refine ⟨l, hl, hsign, ?_⟩
          rw [hrender']
          rw [solAssign_render r s.numVars m0 l.var (hvar l hl) hlen0,
            solAssign_render r s.numVars m' l.var (hvar l hl) hlen']
          intro hcontra
          injection hcontra with hb
          rw [hdiff] at hb
          cases m0.getD l.var false <;> simp at hb
        · exact ih _ hvar

theorem msolve_loopF_length (f : SolverState → Option (List Bool))
    (v : List Lit) (r : Bool) :
    ∀ (fuel : Nat) (s : SolverState),
      ((msolve_loopF f v r s fuel).2).length ≤ fuel := by
  intro fuel
  induction fuel with
  | zero =>
    intro s
    simp [msolve_loopF]
  | succ n ih =>
    intro s
    rw [msolve_loopF]
    cases f s with
    | none => simp
    | some m =>
      dsimp only
      by_cases hn : n = 0
      · rw [if_pos hn]
        simp [hn]
      · rw [if_neg hn]
        dsimp only
        rw [List.length_cons]
        have := ih (engine_add_clause s (ban_solution v (m.map boolToLbool)))
        omega

theorem parse_clause_vars_lt {s : SolverState} {c : List PyVal} {s' : SolverState}
    {lits : List Lit} (hp : parse_clause s c = (s', .ok lits)) :
    ∀ l ∈ lits, l.var < s'.numVars := by
  obtain ⟨-, -, hnv⟩ := parse_clause_ok hp
  intro l hl
  have hle := maxVarIndex_ge hl
  rw [hnv, if_neg (List.ne_nil_of_mem hl)]
  omega

/-- C9: an `msolve_selected` call returns at most `max_nr_of_solutions`
solutions; any two returned solutions differ in the assignment of some
positive projection entry; and when `max_nr_of_solutions` is 0 (or
negative) the call returns an empty sequence whatever the engine solve
function is — the engine is never consulted. -/
theorem C9_enumeration (s : SolverState) (maxn : Int) (proj : List PyVal)
    (r : Bool) (s' : SolverState) (var_lits : List Lit)
    (hp : parse_clause s proj = (s', .ok var_lits)) :
    ∃ sf sols, msolve_selected s maxn proj r = (sf, .ok sols) ∧
      sols.length ≤ maxn.toNat ∧
      sols.Pairwise (DiffOn var_lits) ∧
      (maxn ≤ 0 → ∀ f, msolve_selectedF f s maxn proj r = (s', .ok [])) := by
  have hvar := parse_clause_vars_lt hp
  unfold msolve_selected msolve_selectedF
  rw [hp]
  dsimp only
  refine ⟨_, _, rfl, msolve_loopF_length _ var_lits r maxn.toNat s',
    msolve_loop_pairwise var_lits r maxn.toNat s' hvar, ?_⟩
  intro hneg f
  have h0 : maxn.toNat = 0 := by omega
  rw [h0]
  rfl

theorem C9_enumeration_witness :
    ∃ sf sols, msolve_selected freshSolver 2 [.int 1] true = (sf, .ok sols) ∧
      sols.length ≤ (2 : Int).toNat ∧
      sols.Pairwise (DiffOn [⟨0, false⟩]) ∧
      ((2 : Int) ≤ 0 → ∀ f, msolve_selectedF f freshSolver 2 [.int 1] true =
        (⟨1, [], []⟩, .ok [])) :=
  C9_enumeration freshSolver 2 [.int 1] true ⟨1, [], []⟩ [⟨0, false⟩] rfl

/-- C10: `msolve_selected` parses its projection through `parse_clause`,
the same path as clause ingestion, so a projection referencing variables
at or above `nVars()` grows the variable space — to exactly
`max nVars (maxVar + 1)`, covering every projected variable — before any
solve is attempted (the growth is independent of the engine solve
function), and the final state of the call keeps that grown size. -/
theorem C10_projection_growth (s : SolverState) (proj : List PyVal)
    (s' : SolverState) (var_lits : List Lit)
    (hp : parse_clause s proj = (s', .ok var_lits)) (hne : var_lits ≠ []) :
    (∀ l ∈ var_lits, l.var < s'.numVars) ∧
    s'.numVars = max s.numVars (maxVarIndex var_lits + 1) ∧
    s.numVars ≤ s'.numVars ∧
    (∀ f maxn r, ((msolve_selectedF f s maxn proj r).1).numVars = s'.numVars) := by
  obtain ⟨hc, hx, hnv⟩ := parse_clause_ok hp
  refine ⟨parse_clause_vars_lt hp, ?_, ?_, ?_⟩
  · rw [hnv, if_neg hne]
  · rw [hnv, if_neg hne]
    omega
  · intro f maxn r
    unfold msolve_selectedF
    rw [hp]
    dsimp only
    exact msolve_loopF_fst_numVars f var_lits r maxn.toNat s'

theorem C10_projection_growth_witness :
    (∀ l ∈ [Lit.mk 4 false], l.var < (⟨5, [], []⟩ : SolverState).numVars) ∧
    (⟨5, [], []⟩ : SolverState).numVars =
      max freshSolver.numVars (maxVarIndex [Lit.mk 4 false] + 1) ∧
    freshSolver.numVars ≤ (⟨5, [], []⟩ : SolverState).numVars ∧
    (∀ f maxn r, ((msolve_selectedF f freshSolver maxn [.int 5] r).1).numVars =
      (⟨5, [], []⟩ : SolverState).numVars) :=
  C10_projection_growth freshSolver [.int 5] ⟨5, [], []⟩ [⟨4, false⟩] rfl (by decide)

end Pycryptosat
